import Mathlib

/-
Verification of the two utilities in AFg6K7h4fhy2/Personal-Helpers:
`src/helpers/process_heic_images.py` and
`src/helpers/create_date_folders_in_images.py`.

The Python code is shallowly embedded: the pure indentation-tree parser
`parse_identify_output` becomes a fold over the input's lines; the two
effectful scripts become functions from an explicit filesystem state to a
new state together with a trace of the external commands and reports they
issue.  Characters are handled at the ASCII level (the scripts consume
output of a command-line image tool, which is ASCII).
-/

set_option autoImplicit false

/-! ### Python string primitives used by the scripts -/

/-- Python whitespace test (`str.strip`, `str.lstrip`, regex `\s`),
restricted to the ASCII whitespace characters. -/
def pyIsWS (c : Char) : Bool :=
  c == ' ' || c == '\t' || c == '\n' || c == '\r' || c == '\x0b' || c == '\x0c'

/-- Python `str.strip()` on a list of characters. -/
def pyStripL (cs : List Char) : List Char :=
  ((cs.dropWhile pyIsWS).reverse.dropWhile pyIsWS).reverse

/-- Number of leading whitespace characters: `len(line) - len(line.lstrip())`
in `parse_identify_output` (also the width matched by the regex's `^\s*`). -/
def indentOf (cs : List Char) : Nat :=
  (cs.takeWhile pyIsWS).length

/-- Helper for `pySplitlines`: split on the line terminators `\r\n`, `\r`, `\n`,
accumulating the current (reversed) line. -/
def splitLinesAux : List Char → List Char → List (List Char)
  | [], acc => [acc.reverse]
  | '\r' :: '\n' :: cs, acc => acc.reverse :: splitLinesAux cs []
  | '\r' :: cs, acc => acc.reverse :: splitLinesAux cs []
  | '\n' :: cs, acc => acc.reverse :: splitLinesAux cs []
  | c :: cs, acc => splitLinesAux cs (c :: acc)

/-- Python `str.splitlines()` (for the common terminators `\r\n`, `\r`, `\n`):
unlike a plain split, a trailing terminator produces no final empty line. -/
def pySplitlines (cs : List Char) : List (List Char) :=
  match cs with
  | [] => []
  | _ =>
    let ls := splitLinesAux cs []
    match ls.getLast? with
    | some [] => ls.dropLast
    | _ => ls

/-! ### The regex `^\s*(.+?):\s*(.*)$` of `parse_identify_output`

`re.match` anchors at the start; `\s*` is greedy and backtracks, `(.+?)` is
lazy.  So the engine tries the whitespace-prefix length `p` from the full
leading-whitespace width downwards, and for each `p` takes the shortest
nonempty `(.+?)`, i.e. ends the key at the first `':'` at an index `≥ p + 1`.
`reSearch` mirrors exactly that backtracking order. -/

/-- Index of the first `':'` in a character list, if any. -/
def firstColonIdx : List Char → Option Nat
  | [] => none
  | c :: cs => if c = ':' then some 0 else (firstColonIdx cs).map (fun i => i + 1)

/-- Index of the first `':'` at position `≥ s`, if any. -/
def firstColonFrom (cs : List Char) (s : Nat) : Option Nat :=
  (firstColonIdx (cs.drop s)).map (fun i => s + i)

/-- Backtracking search of the regex: try the `\s*` width `p` from the given
value downwards; at each `p` the lazy `(.+?)` ends at the first colon at an
index `≥ p + 1`.  Returns the pair (start of key, index of the colon). -/
def reSearch (cs : List Char) : Nat → Option (Nat × Nat)
  | 0 =>
    match firstColonFrom cs 1 with
    | some c => some (0, c)
    | none => none
  | p + 1 =>
    match firstColonFrom cs (p + 2) with
    | some c => some (p + 1, c)
    | none => reSearch cs p

/-- The sublist `cs[a:b]`. -/
def sliceCh (cs : List Char) (a b : Nat) : List Char :=
  (cs.drop a).take (b - a)

/-- Lines 24-28 of `process_heic_images.py`: match
`^\s*(.+?):\s*(.*)$` against the line and return
`m.group(1).strip(), m.group(2).strip()`, or `none` when the regex
does not match. -/
def lineKVc (cs : List Char) : Option (String × String) :=
  match reSearch cs (indentOf cs) with
  | none => none
  | some (p, c) =>
    some (String.mk (pyStripL (sliceCh cs p c)), String.mk (pyStripL (cs.drop (c + 1))))

/-! ### The metadata tree -/

/-- A Python value stored in the metadata dictionary built by
`parse_identify_output`: a string, a list, or a nested dict
(dicts are insertion-ordered association lists, as in Python). -/
inductive PyVal where
  | str : String → PyVal
  | list : List PyVal → PyVal
  | dict : List (String × PyVal) → PyVal

/-- Python `d[k]` lookup on an association-list dict. -/
def getKey : List (String × PyVal) → String → Option PyVal
  | [], _ => none
  | (k1, v) :: kvs, k => if k1 = k then some v else getKey kvs k

/-- Python `d[k] = v`: replace in place if the key is present (keeping its
position), otherwise append at the end (Python dicts keep insertion order). -/
def setKey : List (String × PyVal) → String → PyVal → List (String × PyVal)
  | [], k, v => [(k, v)]
  | (k1, v1) :: kvs, k, v =>
    if k1 = k then (k1, v) :: kvs else (k1, v1) :: setKey kvs k v

/-- Python `k in d`. -/
def hasKey : List (String × PyVal) → String → Bool
  | [], _ => false
  | (k1, _) :: kvs, k => if k1 = k then true else hasKey kvs k

/-- Lines 41-47 of `process_heic_images.py`: the value stored under `key`
after inserting the string `value` — promote an existing non-list value to a
list, append to an existing list, else store the bare string. -/
def promote (old : Option PyVal) (v : String) : PyVal :=
  match old with
  | some (PyVal.list l) => PyVal.list (l ++ [PyVal.str v])
  | some w => PyVal.list [w, PyVal.str v]
  | none => PyVal.str v

/-- The combined effect of lines 41-47 on the parent dict. -/
def insertVal (d : List (String × PyVal)) (k : String) (v : String) :
    List (String × PyVal) :=
  setKey d k (promote (getKey d k) v)

/-- Apply `f` to the nested dict reached from `d` along the key path
`path` (used to model Python's mutation through the dict references held
on the parser stack; on the stack every path resolves to a dict, so the
fallthrough branch is never reached during a parse). -/
def modifyAt (d : List (String × PyVal)) (path : List String)
    (f : List (String × PyVal) → List (String × PyVal)) : List (String × PyVal) :=
  match path with
  | [] => f d
  | k :: ks =>
    match getKey d k with
    | some (PyVal.dict d2) => setKey d k (PyVal.dict (modifyAt d2 ks f))
    | _ => d

/-- Parser state of `parse_identify_output`: the root dict and the stack of
(indentation, dict) pairs.  A dict held on the Python stack is an object
reference; here it is represented by its key path from the root, which is
stable because the code only ever mutates through the current stack top
(everything pushed above a dict is popped before that dict is written to
again). -/
structure ParseSt where
  root : List (String × PyVal)
  stack : List (Nat × List String)

/-- The body of the `for line in text.splitlines()` loop of
`parse_identify_output` (lines 17-47): skip blank lines, compute the
indentation, match the regex (skipping non-matching lines), pop stack
entries whose indentation is `≥` the line's, fall back to the root when the
stack empties, then either open a nested dict (empty value, pushed at the
current indentation) or insert/append the value. -/
def pyStep (st : ParseSt) (cs : List Char) : ParseSt :=
  if pyStripL cs = [] then st
  else
    let indent := indentOf cs
    match lineKVc cs with
    | none => st
    | some (k, v) =>
      let stack1 := st.stack.dropWhile (fun e => decide (indent ≤ e.1))
      let parentPath := match stack1 with | [] => [] | e :: _ => e.2
      if v = "" then
        { root := modifyAt st.root parentPath (fun d => setKey d k (PyVal.dict [])),
          stack := (indent, parentPath ++ [k]) :: stack1 }
      else
        { root := modifyAt st.root parentPath (fun d => insertVal d k v),
          stack := stack1 }

/-- `parse_identify_output` (lines 9-48 of `process_heic_images.py`):
fold the loop body over the lines, starting from an empty root dict and the
stack seeded with `(0, result)`. -/
def parse_identify_output (text : String) : List (String × PyVal) :=
  (List.foldl pyStep { root := [], stack := [(0, [])] } (pySplitlines text.toList)).root

example : parse_identify_output "A:\n  B: 1\n  C: 2\n" =
    [("A", PyVal.dict [("B", PyVal.str "1"), ("C", PyVal.str "2")])] := rfl

example : parse_identify_output "X: 1\nX: 2\n" =
    [("X", PyVal.list [PyVal.str "1", PyVal.str "2"])] := rfl

example : parse_identify_output "X: 1\nX:\n" = [("X", PyVal.dict [])] := rfl

example : parse_identify_output "A:\nA: x\n" =
    [("A", PyVal.list [PyVal.dict [], PyVal.str "x"])] := rfl

example : parse_identify_output "a:b" = [("a", PyVal.str "b")] := rfl

example : lineKVc "  : x".toList = some ("", "x") := rfl

example : lineKVc ": x".toList = none := rfl

/-! ### Shape predicates on the metadata tree -/

/-- The shape asserted by the specification for the metadata tree: every
value is a string, a list of strings, or (recursively) a nested mapping;
in particular a list contains only strings. -/
def strOnlyTree : PyVal → Bool
  | PyVal.str _ => true
  | PyVal.dict [] => true
  | PyVal.dict ((_, v) :: kvs) => strOnlyTree v && strOnlyTree (PyVal.dict kvs)
  | PyVal.list [] => true
  | PyVal.list (PyVal.str _ :: vs) => strOnlyTree (PyVal.list vs)
  | PyVal.list (_ :: _) => false

/-- The shape the parser actually guarantees: every value is a string, a
nested mapping, or a list whose elements are strings or nested mappings
(never nested lists). -/
def wfVal : PyVal → Bool
  | PyVal.str _ => true
  | PyVal.dict [] => true
  | PyVal.dict ((_, v) :: kvs) => wfVal v && wfVal (PyVal.dict kvs)
  | PyVal.list [] => true
  | PyVal.list (PyVal.str _ :: vs) => wfVal (PyVal.list vs)
  | PyVal.list (PyVal.dict d :: vs) => wfVal (PyVal.dict d) && wfVal (PyVal.list vs)
  | PyVal.list (PyVal.list _ :: _) => false

/-- Keys are unique within every nesting level of the tree (inside nested
dicts and inside dicts stored in lists as well). -/
def ndVal : PyVal → Bool
  | PyVal.str _ => true
  | PyVal.dict [] => true
  | PyVal.dict ((k, v) :: kvs) => !(hasKey kvs k) && ndVal v && ndVal (PyVal.dict kvs)
  | PyVal.list [] => true
  | PyVal.list (v :: vs) => ndVal v && ndVal (PyVal.list vs)

/-- A value that is not a Python list (`not isinstance(parent[key], list)`). -/
def notList : PyVal → Bool
  | PyVal.list _ => false
  | _ => true

example : strOnlyTree (PyVal.dict (parse_identify_output "A:\nA: x\n")) = false := by
  have h : parse_identify_output "A:\nA: x\n" =
      [("A", PyVal.list [PyVal.dict [], PyVal.str "x"])] := rfl
  rw [h]; simp [strOnlyTree]

example : wfVal (PyVal.dict (parse_identify_output "A:\nA: x\n")) = true := by
  have h : parse_identify_output "A:\nA: x\n" =
      [("A", PyVal.list [PyVal.dict [], PyVal.str "x"])] := rfl
  rw [h]; simp [wfVal]

/-! ### Preservation of the tree shape through the parser -/

theorem wf_getKey : ∀ (d : List (String × PyVal)) (k : String) (v : PyVal),
    wfVal (PyVal.dict d) = true → getKey d k = some v → wfVal v = true := by
  intro d
  induction d with
  | nil => intro k v _ h; simp [getKey] at h
  | cons kv kvs ih =>
    intro k v hd h
    obtain ⟨k1, v1⟩ := kv
    simp only [wfVal, Bool.and_eq_true] at hd
    simp only [getKey] at h
    split at h
    · injection h with h2; subst h2; exact hd.1
    · exact ih k v hd.2 h

theorem wf_setKey : ∀ (d : List (String × PyVal)) (k : String) (v : PyVal),
    wfVal (PyVal.dict d) = true → wfVal v = true →
    wfVal (PyVal.dict (setKey d k v)) = true := by
  intro d
  induction d with
  | nil => intro k v _ hv; simp [setKey, wfVal, hv]
  | cons kv kvs ih =>
    intro k v hd hv
    obtain ⟨k1, v1⟩ := kv
    simp only [wfVal, Bool.and_eq_true] at hd
    simp only [setKey]
    split
    · simp only [wfVal, Bool.and_eq_true]; exact ⟨hv, hd.2⟩
    · simp only [wfVal, Bool.and_eq_true]; exact ⟨hd.1, ih k v hd.2 hv⟩

theorem wf_append_str : ∀ (l : List PyVal) (v : String),
    wfVal (PyVal.list l) = true →
    wfVal (PyVal.list (l ++ [PyVal.str v])) = true := by
  intro l
  induction l with
  | nil => intro v _; simp [wfVal]
  | cons x xs ih =>
    intro v hl
    cases x with
    | str s =>
      simp only [List.cons_append, wfVal] at hl ⊢
      exact ih v hl
    | dict d =>
      simp only [List.cons_append, wfVal, Bool.and_eq_true] at hl ⊢
      exact ⟨hl.1, ih v hl.2⟩
    | list l2 => simp [wfVal] at hl

theorem wf_promote : ∀ (d : List (String × PyVal)) (k v : String),
    wfVal (PyVal.dict d) = true → wfVal (promote (getKey d k) v) = true := by
  intro d k v hd
  cases hg : getKey d k with
  | none => simp [promote, wfVal]
  | some w =>
    have hw := wf_getKey d k w hd hg
    cases w with
    | str s => simp [promote, wfVal]
    | dict d2 => simp [promote, wfVal, hw]
    | list l => simp only [promote]; exact wf_append_str l v hw

theorem wf_modifyAt : ∀ (p : List String) (d : List (String × PyVal))
    (f : List (String × PyVal) → List (String × PyVal)),
    wfVal (PyVal.dict d) = true →
    (∀ d2, wfVal (PyVal.dict d2) = true → wfVal (PyVal.dict (f d2)) = true) →
    wfVal (PyVal.dict (modifyAt d p f)) = true := by
  intro p
  induction p with
  | nil => intro d f hd hf; simpa [modifyAt] using hf d hd
  | cons k ks ih =>
    intro d f hd hf
    cases hg : getKey d k with
    | none => simpa [modifyAt, hg] using hd
    | some w =>
      cases w with
      | str s => simpa [modifyAt, hg] using hd
      | list l => simpa [modifyAt, hg] using hd
      | dict d2 =>
        have h2 := wf_getKey d k _ hd hg
        simp only [modifyAt, hg]
        exact wf_setKey d k _ hd (ih d2 f h2 hf)

theorem wf_step : ∀ (st : ParseSt) (cs : List Char),
    wfVal (PyVal.dict st.root) = true →
    wfVal (PyVal.dict (pyStep st cs).root) = true := by
  intro st cs h
  unfold pyStep
  split
  · exact h
  · cases hkv : lineKVc cs with
    | none => simpa [hkv] using h
    | some kv =>
      obtain ⟨k, v⟩ := kv
      simp only [hkv]
      split
      · exact wf_modifyAt _ _ _ h (fun d2 h2 => wf_setKey d2 k _ h2 (by simp [wfVal]))
      · exact wf_modifyAt _ _ _ h (fun d2 h2 => wf_setKey d2 k _ h2 (wf_promote d2 k v h2))

theorem wf_parse_aux : ∀ (ls : List (List Char)) (st : ParseSt),
    wfVal (PyVal.dict st.root) = true →
    wfVal (PyVal.dict (List.foldl pyStep st ls).root) = true := by
  intro ls
  induction ls with
  | nil => intro st h; exact h
  | cons l ls2 ih => intro st h; exact ih _ (wf_step st l h)

/-! ### Preservation of key uniqueness through the parser -/

theorem hasKey_setKey_false : ∀ (d : List (String × PyVal)) (k m : String) (v : PyVal),
    hasKey d m = false → k ≠ m → hasKey (setKey d k v) m = false := by
  intro d
  induction d with
  | nil => intro k m v _ hk; simp [setKey, hasKey, hk]
  | cons kv kvs ih =>
    intro k m v hd hk
    obtain ⟨k1, v1⟩ := kv
    simp only [hasKey] at hd
    by_cases h1m : k1 = m
    · rw [if_pos h1m] at hd; exact absurd hd (by simp)
    · rw [if_neg h1m] at hd
      simp only [setKey]
      by_cases h1k : k1 = k
      · rw [if_pos h1k]; simp only [hasKey]; rw [if_neg h1m]; exact hd
      · rw [if_neg h1k]; simp only [hasKey]; rw [if_neg h1m]; exact ih k m v hd hk

theorem nd_getKey : ∀ (d : List (String × PyVal)) (k : String) (v : PyVal),
    ndVal (PyVal.dict d) = true → getKey d k = some v → ndVal v = true := by
  intro d
  induction d with
  | nil => intro k v _ h; simp [getKey] at h
  | cons kv kvs ih =>
    intro k v hd h
    obtain ⟨k1, v1⟩ := kv
    simp only [ndVal, Bool.and_eq_true] at hd
    simp only [getKey] at h
    split at h
    · injection h with h2; subst h2; exact hd.1.2
    · exact ih k v hd.2 h

theorem nd_setKey : ∀ (d : List (String × PyVal)) (k : String) (v : PyVal),
    ndVal (PyVal.dict d) = true → ndVal v = true →
    ndVal (PyVal.dict (setKey d k v)) = true := by
  intro d
  induction d with
  | nil => intro k v _ hv; simp [setKey, ndVal, hasKey, hv]
  | cons kv kvs ih =>
    intro k v hd hv
    obtain ⟨k1, v1⟩ := kv
    simp only [ndVal, Bool.and_eq_true, Bool.not_eq_true'] at hd
    simp only [setKey]
    split
    · simp only [ndVal, Bool.and_eq_true, Bool.not_eq_true']
      exact ⟨⟨hd.1.1, hv⟩, hd.2⟩
    · simp only [ndVal, Bool.and_eq_true, Bool.not_eq_true']
      refine ⟨⟨hasKey_setKey_false kvs k k1 v hd.1.1 ?_, hd.1.2⟩, ih k v hd.2 hv⟩
      intro h2
      exact absurd h2.symm (by assumption)

theorem nd_append_str : ∀ (l : List PyVal) (v : String),
    ndVal (PyVal.list l) = true →
    ndVal (PyVal.list (l ++ [PyVal.str v])) = true := by
  intro l
  induction l with
  | nil => intro v _; simp [ndVal]
  | cons x xs ih =>
    intro v hl
    simp only [List.cons_append, ndVal, Bool.and_eq_true] at hl ⊢
    exact ⟨hl.1, ih v hl.2⟩

theorem nd_promote : ∀ (d : List (String × PyVal)) (k v : String),
    ndVal (PyVal.dict d) = true → ndVal (promote (getKey d k) v) = true := by
  intro d k v hd
  cases hg : getKey d k with
  | none => simp [promote, ndVal]
  | some w =>
    have hw := nd_getKey d k w hd hg
    cases w with
    | str s => simp [promote, ndVal]
    | dict d2 => simp [promote, ndVal, hw]
    | list l => simp only [promote]; exact nd_append_str l v hw

theorem nd_modifyAt : ∀ (p : List String) (d : List (String × PyVal))
    (f : List (String × PyVal) → List (String × PyVal)),
    ndVal (PyVal.dict d) = true →
    (∀ d2, ndVal (PyVal.dict d2) = true → ndVal (PyVal.dict (f d2)) = true) →
    ndVal (PyVal.dict (modifyAt d p f)) = true := by
  intro p
  induction p with
  | nil => intro d f hd hf; simpa [modifyAt] using hf d hd
  | cons k ks ih =>
    intro d f hd hf
    cases hg : getKey d k with
    | none => simpa [modifyAt, hg] using hd
    | some w =>
      cases w with
      | str s => simpa [modifyAt, hg] using hd
      | list l => simpa [modifyAt, hg] using hd
      | dict d2 =>
        have h2 := nd_getKey d k _ hd hg
        simp only [modifyAt, hg]
        exact nd_setKey d k _ hd (ih d2 f h2 hf)

theorem nd_step : ∀ (st : ParseSt) (cs : List Char),
    ndVal (PyVal.dict st.root) = true →
    ndVal (PyVal.dict (pyStep st cs).root) = true := by
  intro st cs h
  unfold pyStep
  split
  · exact h
  · cases hkv : lineKVc cs with
    | none => simpa [hkv] using h
    | some kv =>
      obtain ⟨k, v⟩ := kv
      simp only [hkv]
      split
      · exact nd_modifyAt _ _ _ h (fun d2 h2 => nd_setKey d2 k _ h2 (by simp [ndVal]))
      · exact nd_modifyAt _ _ _ h (fun d2 h2 => nd_setKey d2 k _ h2 (nd_promote d2 k v h2))

theorem nd_parse_aux : ∀ (ls : List (List Char)) (st : ParseSt),
    ndVal (PyVal.dict st.root) = true →
    ndVal (PyVal.dict (List.foldl pyStep st ls).root) = true := by
  intro ls
  induction ls with
  | nil => intro st h; exact h
  | cons l ls2 ih => intro st h; exact ih _ (nd_step st l h)

/-! ### Characterising the regex match -/

theorem firstColonIdx_drop_none : ∀ (s : Nat) (cs : List Char),
    firstColonIdx cs = none → firstColonIdx (cs.drop s) = none := by
  intro s
  induction s with
  | zero => intro cs h; simpa using h
  | succ n ih =>
    intro cs h
    cases cs with
    | nil => simp [firstColonIdx]
    | cons x xs =>
      simp only [firstColonIdx] at h
      split at h
      · exact absurd h (by simp)
      · simp only [List.drop_succ_cons]
        exact ih xs (by simpa using h)

theorem firstColonFrom_none : ∀ (cs : List Char) (s : Nat),
    firstColonIdx cs = none → firstColonFrom cs s = none := by
  intro cs s h
  simp [firstColonFrom, firstColonIdx_drop_none s cs h]

theorem reSearch_none : ∀ (cs : List Char) (p : Nat),
    firstColonIdx cs = none → reSearch cs p = none := by
  intro cs p h
  induction p with
  | zero => simp [reSearch, firstColonFrom_none cs 1 h]
  | succ n ih => simp [reSearch, firstColonFrom_none cs (n + 2) h, ih]

theorem firstColonIdx_drop_some : ∀ (s : Nat) (cs : List Char) (c : Nat),
    firstColonIdx cs = some c → s ≤ c → firstColonIdx (cs.drop s) = some (c - s) := by
  intro s
  induction s with
  | zero => intro cs c h _; simpa using h
  | succ n ih =>
    intro cs c h hs
    cases cs with
    | nil => simp [firstColonIdx] at h
    | cons x xs =>
      simp only [firstColonIdx] at h
      split at h
      · injection h with h2; omega
      · rw [Option.map_eq_some'] at h
        obtain ⟨c0, hc0, hc⟩ := h
        simp only [List.drop_succ_cons]
        rw [ih xs c0 hc0 (by omega)]
        congr 1
        omega

theorem reSearch_first : ∀ (cs : List Char) (p c : Nat),
    firstColonIdx cs = some c → p + 1 ≤ c → reSearch cs p = some (p, c) := by
  intro cs p c h hp
  cases p with
  | zero =>
    have h1 : firstColonFrom cs 1 = some c := by
      simp only [firstColonFrom, firstColonIdx_drop_some 1 cs c h (by omega),
        Option.map_some']
      congr 1
      omega
    simp [reSearch, h1]
  | succ n =>
    have h1 : firstColonFrom cs (n + 2) = some c := by
      simp only [firstColonFrom, firstColonIdx_drop_some (n + 2) cs c h (by omega),
        Option.map_some']
      congr 1
      omega
    simp [reSearch, h1]

theorem lineKVc_no_colon : ∀ (cs : List Char),
    firstColonIdx cs = none → lineKVc cs = none := by
  intro cs h
  simp [lineKVc, reSearch_none cs (indentOf cs) h]

theorem lineKVc_first_colon : ∀ (cs : List Char) (c : Nat),
    firstColonIdx cs = some c → indentOf cs < c →
    lineKVc cs = some (String.mk (pyStripL (sliceCh cs (indentOf cs) c)),
      String.mk (pyStripL (cs.drop (c + 1)))) := by
  intro cs c h hc
  simp [lineKVc, reSearch_first cs (indentOf cs) c h (by omega)]

/-- Popping with a zero-indentation line (`indent <= stack[-1][0]` with
`indent = 0`) removes every stack entry. -/
theorem dropWhile_zero_le : ∀ (stk : List (Nat × List String)),
    stk.dropWhile (fun e => decide ((0 : Nat) ≤ e.1)) = [] := by
  intro stk
  induction stk with
  | nil => rfl
  | cons e es ih => simp [List.dropWhile, ih]

/-! ### Claims about the tree parser -/

/-- C4: on the input text `"A:\n  B: 1\n  C: 2\n"`, `parse_identify_output`
returns exactly the mapping where the empty value after `A` opens a nested
mapping and the two indented lines are inserted into it as string values. -/
theorem c4_nested_example : parse_identify_output "A:\n  B: 1\n  C: 2\n" =
    [("A", PyVal.dict [("B", PyVal.str "1"), ("C", PyVal.str "2")])] := rfl

/-- C5: a second occurrence of a key whose stored value is a scalar string
promotes the scalar to a one-element list and appends the new value (shown
both as the general rule for the insertion step of lines 41-47 and on the
concrete input `"X: 1\nX: 2\n"`). -/
theorem c5_promote_scalar :
    (∀ (d : List (String × PyVal)) (k v w : String),
      getKey d k = some (PyVal.str w) →
      insertVal d k v = setKey d k (PyVal.list [PyVal.str w, PyVal.str v])) ∧
    parse_identify_output "X: 1\nX: 2\n" =
      [("X", PyVal.list [PyVal.str "1", PyVal.str "2"])] := by
  constructor
  · intro d k v w h
    simp [insertVal, h, promote]
  · rfl

theorem c5_witness :
    insertVal [("Y", PyVal.str "a")] "Y" "b" =
      setKey [("Y", PyVal.str "a")] "Y" (PyVal.list [PyVal.str "a", PyVal.str "b"]) :=
  c5_promote_scalar.1 [("Y", PyVal.str "a")] "Y" "b" "a" rfl

/-- C2 counterexample: on `"X: 1\nX:\n"` the repeated key `X` arrives with an
EMPTY value, and the stored value `"1"` is silently overwritten by a fresh
empty mapping (line 38 `parent[key] = new_dict`) instead of being promoted
to a list. -/
theorem c2_counterexample :
    parse_identify_output "X: 1\n" = [("X", PyVal.str "1")] ∧
    parse_identify_output "X: 1\nX:\n" = [("X", PyVal.dict [])] ∧
    PyVal.dict [] ≠ PyVal.str "1" := by
  refine ⟨rfl, rfl, ?_⟩
  intro h
  exact PyVal.noConfusion h

/-- C2 amended: keys are unique within every nesting level of the result;
a repeated key with a NON-empty value promotes the existing non-list value
to a list before appending; but a repeated key with an empty value replaces
the stored value with a fresh empty nested mapping. -/
theorem c2_amended_unique_keys :
    (∀ text, ndVal (PyVal.dict (parse_identify_output text)) = true) ∧
    (∀ (d : List (String × PyVal)) (k v : String) (old : PyVal),
      getKey d k = some old → notList old = true →
      insertVal d k v = setKey d k (PyVal.list [old, PyVal.str v])) ∧
    parse_identify_output "X: 1\nX:\n" = [("X", PyVal.dict [])] := by
  refine ⟨?_, ?_, rfl⟩
  · intro text
    exact nd_parse_aux _ _ (by simp [ndVal])
  · intro d k v old h hnl
    cases old with
    | str s => simp [insertVal, h, promote]
    | dict d2 => simp [insertVal, h, promote]
    | list l => simp [notList] at hnl

theorem c2_witness :
    ndVal (PyVal.dict (parse_identify_output "A:\n  B: 1\n  B: 2\n")) = true ∧
    insertVal [("X", PyVal.str "1")] "X" "2" =
      setKey [("X", PyVal.str "1")] "X" (PyVal.list [PyVal.str "1", PyVal.str "2"]) :=
  ⟨c2_amended_unique_keys.1 "A:\n  B: 1\n  B: 2\n",
   c2_amended_unique_keys.2.1 [("X", PyVal.str "1")] "X" "2" (PyVal.str "1") rfl rfl⟩

/-- C6 counterexample: on `"A:\nA: x\n"` the nested mapping stored under `A`
is promoted into a list together with the appended string, so the result
contains a list holding a nested mapping — not only strings. -/
theorem c6_counterexample :
    parse_identify_output "A:\nA: x\n" =
      [("A", PyVal.list [PyVal.dict [], PyVal.str "x"])] ∧
    strOnlyTree (PyVal.dict (parse_identify_output "A:\nA: x\n")) = false := by
  constructor
  · rfl
  · have h : parse_identify_output "A:\nA: x\n" =
        [("A", PyVal.list [PyVal.dict [], PyVal.str "x"])] := rfl
    rw [h]; simp [strOnlyTree]

/-- C6 amended: every value in the result of `parse_identify_output` is a
string, a nested mapping, or a list whose elements are strings or nested
mappings — never nested lists. -/
theorem c6_amended_tree_shape :
    ∀ text, wfVal (PyVal.dict (parse_identify_output text)) = true := by
  intro text
  exact wf_parse_aux _ _ (by simp [wfVal])

/-- C10: `parse_identify_output` is total (it is a plain fold in this
model), and for every line at indentation 0 the pop loop removes every
stack entry — including the seeded one — after which the insertion uses the
root mapping, so the step is insensitive to the stack contents. -/
theorem c10_zero_indent_root :
    (∀ (stk : List (Nat × List String)),
      stk.dropWhile (fun e => decide ((0 : Nat) ≤ e.1)) = []) ∧
    (∀ (root : List (String × PyVal)) (stk : List (Nat × List String))
      (cs : List Char) (k v : String),
      pyStripL cs ≠ [] → lineKVc cs = some (k, v) → indentOf cs = 0 →
      pyStep { root := root, stack := stk } cs =
        pyStep { root := root, stack := [] } cs) ∧
    parse_identify_output "A:\n  B:\nC: 1\n" =
      [("A", PyVal.dict [("B", PyVal.dict [])]), ("C", PyVal.str "1")] := by
  refine ⟨dropWhile_zero_le, ?_, rfl⟩
  intro root stk cs k v hb hkv hi
  unfold pyStep
  simp only [if_neg hb, hkv, hi, dropWhile_zero_le stk, List.dropWhile_nil]

theorem c10_witness :
    pyStep { root := [], stack := [(5, ["q"])] } "Z: 9".toList =
      pyStep { root := [], stack := [] } "Z: 9".toList :=
  c10_zero_indent_root.2.1 [] [(5, ["q"])] "Z: 9".toList "Z" "9" (by decide) rfl rfl

/-- C3 counterexample: the line `"a:b"` has its colon NOT followed by a
space, yet it is not skipped — it contributes the pair `("a", "b")`. -/
theorem c3_counterexample :
    parse_identify_output "a:b" = [("a", PyVal.str "b")] ∧
    [("a", PyVal.str "b")] ≠ ([] : List (String × PyVal)) :=
  ⟨rfl, by simp⟩

/-- C3 amended: the regex splits at the first colon (no following space
required), stripping whitespace around key and value; a line with no colon
at all is silently skipped (in the backtracking edge case where the line's
only colon is its very first character the line is also skipped). -/
theorem c3_amended_split :
    (∀ (cs : List Char), firstColonIdx cs = none → lineKVc cs = none) ∧
    (∀ (cs : List Char) (c : Nat),
      firstColonIdx cs = some c → indentOf cs < c →
      lineKVc cs = some (String.mk (pyStripL (sliceCh cs (indentOf cs) c)),
        String.mk (pyStripL (cs.drop (c + 1))))) ∧
    lineKVc "a:b".toList = some ("a", "b") :=
  ⟨lineKVc_no_colon, lineKVc_first_colon, rfl⟩

theorem c3_witness :
    lineKVc "no colon here".toList = none ∧
    lineKVc "k: v: w".toList = some ("k", "v: w") := by
  constructor
  · exact c3_amended_split.1 _ rfl
  · exact c3_amended_split.2.1 "k: v: w".toList 1 rfl (by decide)

/-! ### `create_date_folders_in_images.py` -/

/-- An immediate entry of a directory: a name plus whether `os.path.isfile`
holds for it (directories give `false`). -/
structure FsEntry where
  name : String
  isFile : Bool

/-- State of the target directory seen by `create_image_directories`:
whether the target itself is a directory, its immediate entries, and the
entries inside `<target>/images`. -/
structure DirState where
  isDir : Bool
  entries : List FsEntry
  imagesEntries : List FsEntry

/-- First entry with the given name (`os.path` queries resolve names this
way; in a real directory names are unique). -/
def findEntry : List FsEntry → String → Option FsEntry
  | [], _ => none
  | e :: es, n => if e.name = n then some e else findEntry es n

/-- `os.makedirs(path, exist_ok=True)` inside one parent directory: keep an
existing directory, fail with `FileExistsError` if the name exists as a
file, create the directory otherwise. -/
def makedirs (es : List FsEntry) (n : String) : Except String (List FsEntry) :=
  match findEntry es n with
  | some e => if e.isFile then Except.error "FileExistsError" else Except.ok es
  | none => Except.ok (es ++ [{ name := n, isFile := false }])

/-- ASCII digit (the `\d` of the date regex). -/
def isDig (c : Char) : Bool := c.isDigit

/-- Does the pattern `\d{4}-\d{2}-\d{2}` match at the head of the list. -/
def dateAtHead : List Char → Bool
  | a :: b :: c :: d :: '-' :: m1 :: m2 :: '-' :: d1 :: d2 :: _ =>
    isDig a && isDig b && isDig c && isDig d && isDig m1 && isDig m2 &&
      isDig d1 && isDig d2
  | _ => false

/-- `re.search` of `\d{4}-\d{2}-\d{2}` on a list of characters. -/
def hasDateCh : List Char → Bool
  | [] => false
  | c :: cs => dateAtHead (c :: cs) || hasDateCh cs

/-- Line 29 of `create_date_folders_in_images.py`: the filename contains a
date-like token `\d{4}-\d{2}-\d{2}` somewhere. -/
def hasDateToken (s : String) : Bool := hasDateCh s.data

/-- A name hidden from `glob` patterns such as `*` and `*.HEIC`: glob skips
names beginning with a dot. -/
def startsDot (s : String) : Bool :=
  match s.data with
  | [] => false
  | c :: _ => c = '.'

/-- Index of the last `'.'` in the list, if any. -/
def lastDotIdx : List Char → Option Nat
  | [] => none
  | c :: cs =>
    match lastDotIdx cs with
    | some i => some (i + 1)
    | none => if c = '.' then some 0 else none

/-- The root part of `os.path.splitext` on a bare filename: split at the
last dot, except that a run of leading dots never starts an extension. -/
def splitextRootCh (cs : List Char) : List Char :=
  match lastDotIdx cs with
  | none => cs
  | some r => if (cs.take r).any (fun c => !(c == '.')) then cs.take r else cs

/-- `os.path.splitext(name)[0]` for a bare filename. -/
def splitextRoot (s : String) : String := String.mk (splitextRootCh s.data)

example : splitextRoot "trip 2023-04-05.jpg" = "trip 2023-04-05" := rfl

example : splitextRoot ".bashrc" = ".bashrc" := rfl

example : hasDateToken "IMG_2024-01-02 foo.heic" = true := rfl

example : hasDateToken "IMG_224-01-02.heic" = false := rfl

/-- The `for filepath in files` loop (lines 24-35): for every file entry
whose name contains a date token, `os.makedirs` the name without extension
inside `images` (reporting creation; reports are not modelled for this
script since no claim mentions them). -/
def dateLoop : List FsEntry → List FsEntry → Except String (List FsEntry)
  | [], imgs => Except.ok imgs
  | e :: rest, imgs =>
    if e.isFile && hasDateToken e.name then
      match makedirs imgs (splitextRoot e.name) with
      | Except.error s => Except.error s
      | Except.ok imgs2 => dateLoop rest imgs2
    else dateLoop rest imgs

/-- `create_image_directories` (lines 7-35): raise `NotADirectoryError` for
a non-directory target, create `images` if absent, glob the immediate
entries (glob `*` skips dot-names), and create one directory under `images`
per date-carrying file. -/
def create_image_directories (fs : DirState) : Except String DirState :=
  if fs.isDir then
    match makedirs fs.entries "images" with
    | Except.error s => Except.error s
    | Except.ok ents =>
      match dateLoop (ents.filter (fun e => !(startsDot e.name))) fs.imagesEntries with
      | Except.error s => Except.error s
      | Except.ok imgs => Except.ok { isDir := true, entries := ents, imagesEntries := imgs }
  else Except.error "NotADirectoryError"

example : create_image_directories
    { isDir := true,
      entries := [{ name := "trip 2023-04-05.jpg", isFile := true }],
      imagesEntries := [] } =
  Except.ok
    { isDir := true,
      entries := [{ name := "trip 2023-04-05.jpg", isFile := true },
        { name := "images", isFile := false }],
      imagesEntries := [{ name := "trip 2023-04-05", isFile := false }] } := rfl

/-! ### Lemmas about directory creation -/

theorem findEntry_append_none : ∀ (es : List FsEntry) (e2 : FsEntry) (n : String),
    findEntry es n = none → e2.name = n → findEntry (es ++ [e2]) n = some e2 := by
  intro es e2 n h hn
  induction es with
  | nil => simp [findEntry, hn]
  | cons e rest ih =>
    simp only [findEntry] at h
    split at h
    · exact absurd h (by simp)
    · simp only [List.cons_append, findEntry]
      rw [if_neg (by assumption)]
      exact ih h

theorem findEntry_append_some : ∀ (es : List FsEntry) (e2 : FsEntry) (n : String)
    (e : FsEntry), findEntry es n = some e → findEntry (es ++ [e2]) n = some e := by
  intro es e2 n e h
  induction es with
  | nil => simp [findEntry] at h
  | cons e1 rest ih =>
    simp only [findEntry] at h
    simp only [List.cons_append, findEntry]
    split at h
    · rw [if_pos (by assumption)]; exact h
    · rw [if_neg (by assumption)]; exact ih h

theorem makedirs_find : ∀ (imgs imgs2 : List FsEntry) (n : String),
    makedirs imgs n = Except.ok imgs2 →
    ∃ d, findEntry imgs2 n = some d ∧ d.isFile = false := by
  intro imgs imgs2 n h
  unfold makedirs at h
  cases hf : findEntry imgs n with
  | some e =>
    simp only [hf] at h
    by_cases hef : e.isFile
    · rw [if_pos hef] at h; exact absurd h (by simp)
    · rw [if_neg hef] at h
      injection h with h2; subst h2
      exact ⟨e, hf, by simpa using hef⟩
  | none =>
    simp only [hf] at h
    injection h with h2; subst h2
    exact ⟨{ name := n, isFile := false }, findEntry_append_none imgs _ n hf rfl, rfl⟩

theorem makedirs_preserve : ∀ (imgs imgs2 : List FsEntry) (n m : String) (e : FsEntry),
    findEntry imgs m = some e → makedirs imgs n = Except.ok imgs2 →
    findEntry imgs2 m = some e := by
  intro imgs imgs2 n m e hf h
  unfold makedirs at h
  cases hn : findEntry imgs n with
  | some e1 =>
    simp only [hn] at h
    by_cases he1 : e1.isFile
    · rw [if_pos he1] at h; exact absurd h (by simp)
    · rw [if_neg he1] at h; injection h with h2; subst h2; exact hf
  | none =>
    simp only [hn] at h
    injection h with h2; subst h2
    exact findEntry_append_some imgs _ m e hf

theorem makedirs_twice : ∀ (es es2 : List FsEntry) (n : String),
    makedirs es n = Except.ok es2 → makedirs es2 n = Except.ok es2 := by
  intro es es2 n h
  obtain ⟨d, hd, hdf⟩ := makedirs_find es es2 n h
  unfold makedirs
  simp [hd, hdf]

theorem dateLoop_preserve : ∀ (es : List FsEntry) (imgs imgs2 : List FsEntry)
    (m : String) (e : FsEntry),
    dateLoop es imgs = Except.ok imgs2 → findEntry imgs m = some e →
    findEntry imgs2 m = some e := by
  intro es
  induction es with
  | nil =>
    intro imgs imgs2 m e h hf
    simp only [dateLoop] at h
    injection h with h2; subst h2; exact hf
  | cons e1 rest ih =>
    intro imgs imgs2 m e h hf
    simp only [dateLoop] at h
    split at h
    · cases hm : makedirs imgs (splitextRoot e1.name) with
      | error s => rw [hm] at h; exact absurd h (by simp)
      | ok imgsA =>
        rw [hm] at h
        exact ih imgsA imgs2 m e h (makedirs_preserve imgs imgsA _ m e hf hm)
    · exact ih imgs imgs2 m e h hf

theorem dateLoop_find : ∀ (es : List FsEntry) (imgs imgs2 : List FsEntry)
    (e : FsEntry),
    dateLoop es imgs = Except.ok imgs2 → e ∈ es →
    (e.isFile && hasDateToken e.name) = true →
    ∃ d, findEntry imgs2 (splitextRoot e.name) = some d ∧ d.isFile = false := by
  intro es
  induction es with
  | nil => intro imgs imgs2 e _ he; simp at he
  | cons e1 rest ih =>
    intro imgs imgs2 e h he hrel
    simp only [dateLoop] at h
    rcases List.mem_cons.mp he with he1 | he2
    · subst he1
      rw [if_pos hrel] at h
      cases hm : makedirs imgs (splitextRoot e.name) with
      | error s => rw [hm] at h; exact absurd h (by simp)
      | ok imgsA =>
        rw [hm] at h
        obtain ⟨d, hd, hdf⟩ := makedirs_find imgs imgsA _ hm
        exact ⟨d, dateLoop_preserve rest imgsA imgs2 _ d h hd, hdf⟩
    · split at h
      · cases hm : makedirs imgs (splitextRoot e1.name) with
        | error s => rw [hm] at h; exact absurd h (by simp)
        | ok imgsA => rw [hm] at h; exact ih imgsA imgs2 e h he2 hrel
      · exact ih imgs imgs2 e h he2 hrel

theorem dateLoop_idem : ∀ (es : List FsEntry) (imgs : List FsEntry),
    (∀ e, e ∈ es → (e.isFile && hasDateToken e.name) = true →
      ∃ d, findEntry imgs (splitextRoot e.name) = some d ∧ d.isFile = false) →
    dateLoop es imgs = Except.ok imgs := by
  intro es
  induction es with
  | nil => intro imgs _; rfl
  | cons e1 rest ih =>
    intro imgs hall
    simp only [dateLoop]
    split
    · obtain ⟨d, hd, hdf⟩ := hall e1 (by simp) (by assumption)
      have hm : makedirs imgs (splitextRoot e1.name) = Except.ok imgs := by
        unfold makedirs
        simp [hd, hdf]
      rw [hm]
      exact ih imgs (fun e he hrel => hall e (List.mem_cons_of_mem e1 he) hrel)
    · exact ih imgs (fun e he hrel => hall e (List.mem_cons_of_mem e1 he) hrel)

/-- C7: running `create_image_directories` a second time on the state
produced by a successful run raises no error and creates nothing new —
the resulting state is exactly the state after the first run. -/
theorem c7_idempotent : ∀ (fs r : DirState),
    create_image_directories fs = Except.ok r →
    create_image_directories r = Except.ok r := by
  intro fs r h
  unfold create_image_directories at h
  split at h
  case isFalse hd => exact absurd h (by simp)
  case isTrue hd =>
    cases hm : makedirs fs.entries "images" with
    | error s => simp only [hm] at h; exact absurd h (by simp)
    | ok ents =>
      simp only [hm] at h
      cases hl : dateLoop (ents.filter (fun e => !(startsDot e.name)))
          fs.imagesEntries with
      | error s => simp only [hl] at h; exact absurd h (by simp)
      | ok imgs =>
        simp only [hl] at h
        injection h with h2
        subst h2
        have hidem : dateLoop (ents.filter (fun e => !(startsDot e.name))) imgs =
            Except.ok imgs := by
          apply dateLoop_idem
          intro e he hrel
          exact dateLoop_find _ _ _ e hl he hrel
        simp [create_image_directories, makedirs_twice fs.entries ents "images" hm,
          hidem]

theorem c7_witness :
    create_image_directories
      { isDir := true,
        entries := [{ name := "trip 2023-04-05.jpg", isFile := true },
          { name := "images", isFile := false }],
        imagesEntries := [{ name := "trip 2023-04-05", isFile := false }] } =
    Except.ok
      { isDir := true,
        entries := [{ name := "trip 2023-04-05.jpg", isFile := true },
          { name := "images", isFile := false }],
        imagesEntries := [{ name := "trip 2023-04-05", isFile := false }] } :=
  c7_idempotent
    { isDir := true,
      entries := [{ name := "trip 2023-04-05.jpg", isFile := true }],
      imagesEntries := [] }
    _ rfl

/-! ### Which subdirectories the organizer creates -/

/-- Is an entry with this name present. -/
def dirNamed : List FsEntry → String → Bool
  | [], _ => false
  | e :: es, n => if e.name = n then true else dirNamed es n

/-- Does some entry of the target directory make the organizer create the
images subdirectory named `n`: a non-hidden file entry whose name carries a
date token and whose extension-stripped name is `n`. -/
def eligAny : List FsEntry → String → Bool
  | [], _ => false
  | e :: es, n =>
    ((!(startsDot e.name)) && e.isFile && hasDateToken e.name &&
      (splitextRoot e.name == n)) || eligAny es n

/-- Entries the date loop creates from its (already glob-filtered) list. -/
def loopElig : List FsEntry → String → Bool
  | [], _ => false
  | e :: es, n =>
    (e.isFile && hasDateToken e.name && (splitextRoot e.name == n)) || loopElig es n

theorem findEntry_dirNamed : ∀ (es : List FsEntry) (n : String) (e : FsEntry),
    findEntry es n = some e → dirNamed es n = true := by
  intro es n e h
  induction es with
  | nil => simp [findEntry] at h
  | cons e1 rest ih =>
    simp only [findEntry] at h
    simp only [dirNamed]
    split at h
    · rw [if_pos (by assumption)]
    · rw [if_neg (by assumption)]; exact ih h

theorem dirNamed_append : ∀ (es : List FsEntry) (e2 : FsEntry) (n : String),
    dirNamed (es ++ [e2]) n = (dirNamed es n || (e2.name == n)) := by
  intro es e2 n
  induction es with
  | nil => by_cases h : e2.name = n <;> simp [dirNamed, h]
  | cons e1 rest ih => by_cases h : e1.name = n <;> simp [dirNamed, h, ih]

theorem makedirs_dirNamed : ∀ (imgs imgs2 : List FsEntry) (k n : String),
    makedirs imgs k = Except.ok imgs2 →
    dirNamed imgs2 n = (dirNamed imgs n || (k == n)) := by
  intro imgs imgs2 k n h
  unfold makedirs at h
  cases hf : findEntry imgs k with
  | some e =>
    simp only [hf] at h
    by_cases hef : e.isFile
    · rw [if_pos hef] at h; exact absurd h (by simp)
    · rw [if_neg hef] at h
      injection h with h2; subst h2
      by_cases hkn : k = n
      · subst hkn
        rw [findEntry_dirNamed imgs k e hf]
        simp
      · rw [beq_eq_false_iff_ne.mpr hkn]
        simp
  | none =>
    simp only [hf] at h
    injection h with h2; subst h2
    exact dirNamed_append imgs _ n

theorem dateLoop_dirNamed : ∀ (es : List FsEntry) (imgs imgs2 : List FsEntry)
    (n : String),
    dateLoop es imgs = Except.ok imgs2 →
    dirNamed imgs2 n = (dirNamed imgs n || loopElig es n) := by
  intro es
  induction es with
  | nil =>
    intro imgs imgs2 n h
    simp only [dateLoop] at h
    injection h with h2; subst h2
    simp [loopElig]
  | cons e1 rest ih =>
    intro imgs imgs2 n h
    simp only [dateLoop] at h
    by_cases hrel : (e1.isFile && hasDateToken e1.name) = true
    · rw [if_pos hrel] at h
      cases hm : makedirs imgs (splitextRoot e1.name) with
      | error s => rw [hm] at h; exact absurd h (by simp)
      | ok imgsA =>
        rw [hm] at h
        rw [ih imgsA imgs2 n h, makedirs_dirNamed imgs imgsA _ n hm]
        simp [loopElig, hrel, Bool.or_assoc]
    · rw [if_neg hrel] at h
      rw [ih imgs imgs2 n h]
      rw [Bool.not_eq_true] at hrel
      simp [loopElig, hrel]

theorem loopElig_filter : ∀ (es : List FsEntry) (n : String),
    loopElig (es.filter (fun e => !(startsDot e.name))) n = eligAny es n := by
  intro es n
  induction es with
  | nil => simp [List.filter, loopElig, eligAny]
  | cons e1 rest ih =>
    by_cases hdot : startsDot e1.name = true
    · simp [List.filter, hdot, eligAny, ih]
    · rw [Bool.not_eq_true] at hdot
      simp [List.filter, hdot, loopElig, eligAny, ih]

theorem eligAny_append_dir : ∀ (es : List FsEntry) (e2 : FsEntry) (n : String),
    e2.isFile = false → eligAny (es ++ [e2]) n = eligAny es n := by
  intro es e2 n h2
  induction es with
  | nil => simp [eligAny, h2]
  | cons e1 rest ih => simp [eligAny, ih]

/-- C8 amended: a successful run creates the subdirectory
`images/<name-without-extension>` exactly for the non-hidden immediate file
entries whose name contains a date token (glob `*` skips names beginning
with a dot); directory entries are skipped, and files without a date token
produce nothing. -/
theorem c8_amended_created_dirs : ∀ (fs r : DirState) (n : String),
    create_image_directories fs = Except.ok r →
    dirNamed r.imagesEntries n =
      (dirNamed fs.imagesEntries n || eligAny fs.entries n) := by
  intro fs r n h
  unfold create_image_directories at h
  split at h
  case isFalse hd => exact absurd h (by simp)
  case isTrue hd =>
    cases hm : makedirs fs.entries "images" with
    | error s => simp only [hm] at h; exact absurd h (by simp)
    | ok ents =>
      simp only [hm] at h
      cases hl : dateLoop (ents.filter (fun e => !(startsDot e.name)))
          fs.imagesEntries with
      | error s => simp only [hl] at h; exact absurd h (by simp)
      | ok imgs =>
        simp only [hl] at h
        injection h with h2
        subst h2
        show dirNamed imgs n = (dirNamed fs.imagesEntries n || eligAny fs.entries n)
        rw [dateLoop_dirNamed _ _ _ n hl, loopElig_filter ents n]
        unfold makedirs at hm
        cases hf : findEntry fs.entries "images" with
        | some e =>
          simp only [hf] at hm
          by_cases hef : e.isFile
          · rw [if_pos hef] at hm; exact absurd hm (by simp)
          · rw [if_neg hef] at hm
            injection hm with h3
            rw [h3]
        | none =>
          simp only [hf] at hm
          injection hm with h3
          rw [← h3, eligAny_append_dir fs.entries _ n rfl]

theorem c8_witness :
    dirNamed [{ name := "pic 2024-05-06", isFile := false }] "pic 2024-05-06" =
      (dirNamed ([] : List FsEntry) "pic 2024-05-06" ||
        eligAny [{ name := "pic 2024-05-06.png", isFile := true }] "pic 2024-05-06") :=
  c8_amended_created_dirs
    { isDir := true,
      entries := [{ name := "pic 2024-05-06.png", isFile := true }],
      imagesEntries := [] }
    { isDir := true,
      entries := [{ name := "pic 2024-05-06.png", isFile := true },
        { name := "images", isFile := false }],
      imagesEntries := [{ name := "pic 2024-05-06", isFile := false }] }
    "pic 2024-05-06" rfl

/-- C8 counterexample: a HIDDEN file whose name contains a date token is
skipped by glob `*`, so no subdirectory is created for it, although it is a
file entry of the target directory whose name matches the pattern. -/
theorem c8_counterexample :
    create_image_directories
      { isDir := true,
        entries := [{ name := ".2024-01-02a.txt", isFile := true }],
        imagesEntries := [] } =
    Except.ok
      { isDir := true,
        entries := [{ name := ".2024-01-02a.txt", isFile := true },
          { name := "images", isFile := false }],
        imagesEntries := [] } ∧
    hasDateToken ".2024-01-02a.txt" = true := ⟨rfl, rfl⟩

/-! ### `process_heic_images.py` -/

/-- Does the first list occur entrywise at the head of the second. -/
def leadEq : List Char → List Char → Bool
  | [], _ => true
  | _ :: _, [] => false
  | p :: ps, c :: cs => if p = c then leadEq ps cs else false

/-- Case-sensitive suffix test on file names (what a glob `*.ext` pattern
checks besides hiding dot-names). -/
def strEndsWith (s suf : String) : Bool :=
  leadEq suf.data.reverse s.data.reverse

/-- Membership of a name in a list of names. -/
def memStr : List String → String → Bool
  | [], _ => false
  | x :: xs, n => if x = n then true else memStr xs n

/-- Creating a file that may already exist: names are a set. -/
def addIfAbsent (l : List String) (n : String) : List String :=
  if memStr l n then l else l ++ [n]

/-- Outcomes of the external calls: `identify` returns the captured stdout
or `none` for a `CalledProcessError`; the three batch commands either
succeed or fail. -/
structure HeicEnv where
  identify : String → Option String
  convertOk : Bool
  stripOk : Bool
  deleteOk : Bool

/-- The target directory seen by `process_heic_images`. -/
structure HeicFS where
  isDir : Bool
  files : List String

/-- Observable effects of one run: reports the claims mention, the external
commands issued, and sidecar-file writes (with the parsed tree written as
JSON). -/
inductive HeicEv where
  | notDirMsg
  | noFilesMsg
  | identifyCmd (f : String)
  | identifyErrMsg (f : String)
  | sidecarWrite (name : String) (content : List (String × PyVal))
  | convertCmd (fs : List String)
  | convertErrMsg
  | stripCmd (fs : List String)
  | stripErrMsg
  | deleteCmd (fs : List String)
  | deleteErrMsg

/-- Lines 58-59: `glob("*.HEIC") + glob("*.heic")` (glob hides dot-names
and otherwise `*.ext` keeps exactly the names ending in `.ext`). -/
def heicGlob (files : List String) : List String :=
  files.filter (fun n => strEndsWith n ".HEIC" && !(startsDot n)) ++
    files.filter (fun n => strEndsWith n ".heic" && !(startsDot n))

/-- Lines 66-69: `<basename-without-extension>_metadata.json`. -/
def sidecarName (f : String) : String := splitextRoot f ++ "_metadata.json"

/-- Stage 1 (lines 64-85): per HEIC file run `magick identify -verbose`;
on success parse the output and write the sidecar JSON, on failure report
the error and continue with the next file. -/
def stage1 (idRes : String → Option String) :
    List String → List String → List String × List HeicEv
  | [], files => (files, [])
  | f :: rest, files =>
    match idRes f with
    | some out =>
      let mf := sidecarName f
      let next := stage1 idRes rest (addIfAbsent files mf)
      (next.1,
        HeicEv.identifyCmd f :: HeicEv.sidecarWrite mf (parse_identify_output out) ::
          next.2)
    | none =>
      let next := stage1 idRes rest files
      (next.1, HeicEv.identifyCmd f :: HeicEv.identifyErrMsg f :: next.2)

/-- `process_heic_images` (lines 51-123): report and return for a missing
directory; report when no HEIC files are found; otherwise stage 1 per file;
stage 2 one batch `mogrify -format jpg` guarded by `if heic_paths`
(producing a sibling `.jpg` per input on success); stage 3 one batch
`mogrify -strip` over `glob("*.jpg")` — NOT guarded by the HEIC check;
stage 4 one `rm -f` of the HEIC files, guarded again. -/
def process_heic_images (env : HeicEnv) (fs : HeicFS) : HeicFS × List HeicEv :=
  if fs.isDir then
    let heic := heicGlob fs.files
    let s1 : List String × List HeicEv :=
      if heic = [] then (fs.files, [HeicEv.noFilesMsg])
      else stage1 env.identify heic fs.files
    let s2 : List String × List HeicEv :=
      if heic = [] then (s1.1, [])
      else if env.convertOk then
        (List.foldl (fun acc g => addIfAbsent acc (splitextRoot g ++ ".jpg")) s1.1 heic,
          [HeicEv.convertCmd heic])
      else (s1.1, [HeicEv.convertCmd heic, HeicEv.convertErrMsg])
    let jpgs := s2.1.filter (fun n => strEndsWith n ".jpg" && !(startsDot n))
    let s3evs : List HeicEv :=
      if jpgs = [] then []
      else if env.stripOk then [HeicEv.stripCmd jpgs]
      else [HeicEv.stripCmd jpgs, HeicEv.stripErrMsg]
    let s4 : List String × List HeicEv :=
      if heic = [] then (s2.1, [])
      else if env.deleteOk then
        (s2.1.filter (fun n => !(memStr heic n)), [HeicEv.deleteCmd heic])
      else (s2.1, [HeicEv.deleteCmd heic, HeicEv.deleteErrMsg])
    ({ isDir := true, files := s4.1 }, s1.2 ++ s2.2 ++ s3evs ++ s4.2)
  else (fs, [HeicEv.notDirMsg])

/-- An environment in which every external call fails (its `identify` and
flags are irrelevant to runs that issue no such call). -/
def envNoop : HeicEnv :=
  { identify := fun _ => none, convertOk := true, stripOk := true, deleteOk := true }

example : process_heic_images envNoop { isDir := true, files := ["photo.jpg"] } =
    ({ isDir := true, files := ["photo.jpg"] },
      [HeicEv.noFilesMsg, HeicEv.stripCmd ["photo.jpg"]]) := rfl

example : process_heic_images envNoop { isDir := true, files := ["notes.txt"] } =
    ({ isDir := true, files := ["notes.txt"] }, [HeicEv.noFilesMsg]) := rfl

/-- C1: with zero HEIC files but a pre-existing `photo.jpg`, the run reports
"no HEIC files found", creates no sidecar, issues no conversion and no
deletion — but it DOES issue the batch metadata-stripping command on the
pre-existing `.jpg`, because stage 3 globs `*.jpg` without being guarded by
the HEIC check (contradicting the code's own comment "strip metadata from
the newly created JPG files"). -/
theorem c1_strip_leak :
    process_heic_images envNoop { isDir := true, files := ["photo.jpg"] } =
      ({ isDir := true, files := ["photo.jpg"] },
        [HeicEv.noFilesMsg, HeicEv.stripCmd ["photo.jpg"]]) := rfl

/-! ### Lemmas for stage-1 resilience -/

theorem strDataAppend : ∀ (a b : String), (a ++ b).data = a.data ++ b.data := by
  intro a b
  cases a
  cases b
  rfl

theorem strEndsWith_json_HEIC : ∀ (s : String),
    strEndsWith (s ++ "_metadata.json") ".HEIC" = false := by
  intro s
  show leadEq (".HEIC".data.reverse) ((s ++ "_metadata.json").data.reverse) = false
  rw [strDataAppend, List.reverse_append]
  rfl

theorem strEndsWith_json_heic : ∀ (s : String),
    strEndsWith (s ++ "_metadata.json") ".heic" = false := by
  intro s
  show leadEq (".heic".data.reverse) ((s ++ "_metadata.json").data.reverse) = false
  rw [strDataAppend, List.reverse_append]
  rfl

theorem memStr_append : ∀ (a b : List String) (n : String),
    memStr (a ++ b) n = (memStr a n || memStr b n) := by
  intro a b n
  induction a with
  | nil => simp [memStr]
  | cons x xs ih => by_cases h : x = n <;> simp [memStr, h, ih]

theorem memStr_filter_pred : ∀ (p : String → Bool) (l : List String) (n : String),
    memStr (l.filter p) n = true → p n = true := by
  intro p l n h
  induction l with
  | nil => simp [memStr] at h
  | cons x xs ih =>
    rw [List.filter_cons] at h
    by_cases hp : p x = true
    · rw [if_pos hp] at h
      simp only [memStr] at h
      by_cases hxn : x = n
      · subst hxn; exact hp
      · rw [if_neg hxn] at h; exact ih h
    · rw [if_neg hp] at h; exact ih h

theorem memStr_filter_keep : ∀ (p : String → Bool) (l : List String) (n : String),
    memStr l n = true → p n = true → memStr (l.filter p) n = true := by
  intro p l n h hn
  induction l with
  | nil => simp [memStr] at h
  | cons x xs ih =>
    simp only [memStr] at h
    rw [List.filter_cons]
    by_cases hxn : x = n
    · subst hxn
      rw [if_pos hn]
      simp [memStr]
    · rw [if_neg hxn] at h
      by_cases hp : p x = true
      · rw [if_pos hp]
        simp only [memStr]
        rw [if_neg hxn]
        exact ih h
      · rw [if_neg hp]; exact ih h

theorem memStr_heicGlob_sidecar : ∀ (files : List String) (f : String),
    memStr (heicGlob files) (sidecarName f) = false := by
  intro files f
  cases h : memStr (heicGlob files) (sidecarName f) with
  | false => rfl
  | true =>
    exfalso
    unfold heicGlob at h
    rw [memStr_append, Bool.or_eq_true] at h
    cases h with
    | inl h1 =>
      have h2 := (Bool.and_eq_true _ _ |>.mp (memStr_filter_pred _ files _ h1)).1
      unfold sidecarName at h2
      rw [strEndsWith_json_HEIC (splitextRoot f)] at h2
      exact absurd h2 (by simp)
    | inr h1 =>
      have h2 := (Bool.and_eq_true _ _ |>.mp (memStr_filter_pred _ files _ h1)).1
      unfold sidecarName at h2
      rw [strEndsWith_json_heic (splitextRoot f)] at h2
      exact absurd h2 (by simp)

theorem memStr_addIfAbsent : ∀ (l : List String) (k n : String),
    memStr l n = true → memStr (addIfAbsent l k) n = true := by
  intro l k n h
  unfold addIfAbsent
  split
  · exact h
  · rw [memStr_append, h]
    rfl

theorem memStr_addIfAbsent_self : ∀ (l : List String) (k : String),
    memStr (addIfAbsent l k) k = true := by
  intro l k
  unfold addIfAbsent
  split
  case isTrue h => exact h
  case isFalse h =>
    rw [memStr_append]
    have h1 : memStr [k] k = true := by simp [memStr]
    rw [h1]
    simp

theorem stage1_files_mono : ∀ (idr : String → Option String) (l files : List String)
    (n : String), memStr files n = true → memStr (stage1 idr l files).1 n = true := by
  intro idr l
  induction l with
  | nil => intro files n h; exact h
  | cons f rest ih =>
    intro files n h
    cases hid : idr f with
    | some out =>
      simp only [stage1, hid]
      exact ih _ n (memStr_addIfAbsent _ _ n h)
    | none =>
      simp only [stage1, hid]
      exact ih _ n h

theorem stage1_identifyCmd : ∀ (idr : String → Option String) (l files : List String)
    (f : String), f ∈ l → HeicEv.identifyCmd f ∈ (stage1 idr l files).2 := by
  intro idr l
  induction l with
  | nil => intro files f h; simp at h
  | cons g rest ih =>
    intro files f h
    rcases List.mem_cons.mp h with h1 | h2
    · subst h1
      cases hid : idr f with
      | some out =>
        simp only [stage1, hid, List.mem_cons]
        exact Or.inl trivial
      | none =>
        simp only [stage1, hid, List.mem_cons]
        exact Or.inl trivial
    · cases hid : idr g with
      | some out =>
        simp only [stage1, hid, List.mem_cons]
        exact Or.inr (Or.inr (ih _ f h2))
      | none =>
        simp only [stage1, hid, List.mem_cons]
        exact Or.inr (Or.inr (ih _ f h2))

theorem stage1_identifyErr : ∀ (idr : String → Option String) (l files : List String)
    (f : String), f ∈ l → idr f = none →
    HeicEv.identifyErrMsg f ∈ (stage1 idr l files).2 := by
  intro idr l
  induction l with
  | nil => intro files f h _; simp at h
  | cons g rest ih =>
    intro files f h hnone
    rcases List.mem_cons.mp h with h1 | h2
    · subst h1
      simp only [stage1, hnone, List.mem_cons]
      exact Or.inr (Or.inl trivial)
    · cases hid : idr g with
      | some out =>
        simp only [stage1, hid, List.mem_cons]
        exact Or.inr (Or.inr (ih _ f h2 hnone))
      | none =>
        simp only [stage1, hid, List.mem_cons]
        exact Or.inr (Or.inr (ih _ f h2 hnone))

theorem stage1_sidecar : ∀ (idr : String → Option String) (l files : List String)
    (f : String), f ∈ l → idr f ≠ none →
    memStr (stage1 idr l files).1 (sidecarName f) = true := by
  intro idr l
  induction l with
  | nil => intro files f h _; simp at h
  | cons g rest ih =>
    intro files f h hne
    rcases List.mem_cons.mp h with h1 | h2
    · subst h1
      cases hid : idr f with
      | none => exact absurd hid hne
      | some out =>
        simp only [stage1, hid]
        exact stage1_files_mono idr rest _ _ (memStr_addIfAbsent_self files (sidecarName f))
    · cases hid : idr g with
      | some out =>
        simp only [stage1, hid]
        exact ih _ f h2 hne
      | none =>
        simp only [stage1, hid]
        exact ih _ f h2 hne

theorem foldl_addIfAbsent_mono : ∀ (l acc : List String) (g : String → String)
    (n : String), memStr acc n = true →
    memStr (List.foldl (fun a x => addIfAbsent a (g x)) acc l) n = true := by
  intro l
  induction l with
  | nil => intro acc g n h; exact h
  | cons x xs ih =>
    intro acc g n h
    simp only [List.foldl_cons]
    exact ih _ g n (memStr_addIfAbsent acc (g x) n h)

/-- C9: in stage 1, identification is attempted for EVERY matched file no
matter which identifications fail; a failing file is reported and skipped;
the conversion stage still runs (its command is issued whenever any HEIC
file matched); and the sidecar written for every successfully identified
file is still present in the directory at the end of the run. -/
theorem c9_stage1_resilient : ∀ (env : HeicEnv) (fs : HeicFS) (f : String),
    fs.isDir = true → f ∈ heicGlob fs.files →
    (HeicEv.identifyCmd f ∈ (process_heic_images env fs).2) ∧
    (env.identify f = none →
      HeicEv.identifyErrMsg f ∈ (process_heic_images env fs).2) ∧
    (HeicEv.convertCmd (heicGlob fs.files) ∈ (process_heic_images env fs).2) ∧
    (env.identify f ≠ none →
      memStr (process_heic_images env fs).1.files (sidecarName f) = true) := by
  intro env fs f hd hf
  have hne : ¬ heicGlob fs.files = [] := by
    intro h0; rw [h0] at hf; simp at hf
  unfold process_heic_images
  rw [if_pos hd]
  simp only [if_neg hne]
  refine ⟨?_, ?_, ?_, ?_⟩
  · simp only [List.mem_append]
    exact Or.inl (Or.inl (Or.inl (stage1_identifyCmd env.identify _ fs.files f hf)))
  · intro hnone
    simp only [List.mem_append]
    exact Or.inl (Or.inl (Or.inl (stage1_identifyErr env.identify _ fs.files f hf hnone)))
  · simp only [List.mem_append]
    refine Or.inl (Or.inl (Or.inr ?_))
    by_cases hc : env.convertOk = true
    · rw [if_pos hc]; simp
    · rw [if_neg hc]; simp
  · intro hsome
    have hs1 : memStr (stage1 env.identify (heicGlob fs.files) fs.files).1
        (sidecarName f) = true :=
      stage1_sidecar env.identify _ fs.files f hf hsome
    have hside : memStr (heicGlob fs.files) (sidecarName f) = false :=
      memStr_heicGlob_sidecar fs.files f
    by_cases hc : env.convertOk = true
    · simp only [if_pos hc]
      have hs2 : memStr (List.foldl
          (fun acc g => addIfAbsent acc (splitextRoot g ++ ".jpg"))
          (stage1 env.identify (heicGlob fs.files) fs.files).1
          (heicGlob fs.files)) (sidecarName f) = true :=
        foldl_addIfAbsent_mono (heicGlob fs.files) _
          (fun t => splitextRoot t ++ ".jpg") (sidecarName f) hs1
      by_cases hdel : env.deleteOk = true
      · simp only [if_pos hdel]
        apply memStr_filter_keep _ _ _ hs2
        rw [hside]
        rfl
      · simp only [if_neg hdel]
        exact hs2
    · simp only [if_neg hc]
      by_cases hdel : env.deleteOk = true
      · simp only [if_pos hdel]
        apply memStr_filter_keep _ _ _ hs1
        rw [hside]
        rfl
      · simp only [if_neg hdel]
        exact hs1

/-- An environment whose identification fails exactly on `a.heic`. -/
def envW9 : HeicEnv :=
  { identify := fun f => if f = "a.heic" then none else some "Key: val\n",
    convertOk := true, stripOk := true, deleteOk := true }

theorem c9_witness :
    HeicEv.identifyCmd "b.heic" ∈
      (process_heic_images envW9 { isDir := true, files := ["a.heic", "b.heic"] }).2 ∧
    HeicEv.identifyErrMsg "a.heic" ∈
      (process_heic_images envW9 { isDir := true, files := ["a.heic", "b.heic"] }).2 ∧
    HeicEv.convertCmd (heicGlob ["a.heic", "b.heic"]) ∈
      (process_heic_images envW9 { isDir := true, files := ["a.heic", "b.heic"] }).2 ∧
    memStr
      (process_heic_images envW9 { isDir := true, files := ["a.heic", "b.heic"] }).1.files
      (sidecarName "b.heic") = true := by
  have hb := c9_stage1_resilient envW9 { isDir := true, files := ["a.heic", "b.heic"] }
    "b.heic" rfl (by decide)
  have ha := c9_stage1_resilient envW9 { isDir := true, files := ["a.heic", "b.heic"] }
    "a.heic" rfl (by decide)
  exact ⟨hb.1, ha.2.1 rfl, hb.2.2.1,
    hb.2.2.2 (by intro h; exact Option.noConfusion h)⟩
